import Mathlib

/-!
Formal model of `kwfarkas42.cpp`, a brute-force planar convex hull program.

Points are pairs of rational numbers (the C++ code uses `double`; the
specification treats coordinates as exact real values, which ℚ models
faithfully for the exact comparisons the algorithm performs).

`brute_force_convex_hull` embeds the triple loop of lines 188-223:
the outer two loops enumerate index pairs (i, j) with i < j, and the inner
loop over k is captured by `hasLT`/`hasGT`.  `find_hull` embeds lines
225-264, with the C++ exception modelled as `Except.error` and the
`std::set<point>` modelled as a sorted duplicate-free list built by
ordered insertion (`set_insert`), exactly as `std::set` with
`std::pair`'s lexicographic `operator<` behaves.
-/

/-- A point, `std::pair<double,double>` in the source, modelled over ℚ. -/
abbrev point := ℚ × ℚ

/-- A line segment, `std::pair<point,point>` in the source. -/
abbrev line_segment := point × point

/-- Default element used for (always in-bounds) vector indexing. -/
def originPt : point := (0, 0)

/-- `std::pair<double,double>::operator<`: lexicographic order, x then y. -/
def pt_lt (p q : point) : Prop :=
  p.1 < q.1 ∨ (p.1 = q.1 ∧ p.2 < q.2)

instance pt_lt_decidable (p q : point) : Decidable (pt_lt p q) :=
  inferInstanceAs (Decidable (p.1 < q.1 ∨ (p.1 = q.1 ∧ p.2 < q.2)))

/-- `sgmt.first` (line 140). -/
def get_first (sgmt : line_segment) : point := sgmt.1

/-- `sgmt.second` (line 144). -/
def get_second (sgmt : line_segment) : point := sgmt.2

/-- Line coefficient `a = pts[j].second - pts[i].second` (line 196). -/
def coeff_a (pi pj : point) : ℚ := pj.2 - pi.2

/-- Line coefficient `b = pts[i].first - pts[j].first` (line 197). -/
def coeff_b (pi pj : point) : ℚ := pi.1 - pj.1

/-- Line coefficient `c = pts[j].second*pts[i].first - pts[i].second*pts[j].first` (line 198). -/
def coeff_c (pi pj : point) : ℚ := pj.2 * pi.1 - pi.2 * pj.1

/-- `val = a*pts[k].first + b*pts[k].second - c` (line 205). -/
def side_value (pi pj pk : point) : ℚ :=
  coeff_a pi pj * pk.1 + coeff_b pi pj * pk.2 - coeff_c pi pj

/-- The flag `LT` after the k-loop (lines 200-212): some point lies strictly
on the negative side of the line through `pi` and `pj`. -/
def hasLT (pts : List point) (pi pj : point) : Bool :=
  pts.any (fun pk => decide (side_value pi pj pk < 0))

/-- The flag `GT` after the k-loop (lines 200-212): some point lies strictly
on the positive side of the line through `pi` and `pj`. -/
def hasGT (pts : List point) (pi pj : point) : Bool :=
  pts.any (fun pk => decide (side_value pi pj pk > 0))

/-- The acceptance test `LT != true || GT != true` of line 215. -/
def accept_edge (pts : List point) (pi pj : point) : Bool :=
  !(hasLT pts pi pj && hasGT pts pi pj)

/-- The C++ loop bound `pts.size() - 1` computed in `size_t` arithmetic
(line 190): unsigned subtraction wraps modulo 2^64 when the vector is empty. -/
def size_t_sub_one (n : Nat) : Nat := (n + 2 ^ 64 - 1) % 2 ^ 64

/-- The index pairs visited by the two outer loops of lines 190-193:
`i` from `0` to `pts.size() - 2`, `j` from `i + 1` to `pts.size() - 1`,
in generation order.  The outer bound is written with ℕ-truncated
subtraction; for every vector size `1 ≤ n < 2^64` it coincides with the
`size_t` value `size_t_sub_one n` actually computed at line 190, and the
`n = 0` case never reaches this code through `find_hull` (claim C9). -/
def pair_indices (n : Nat) : List (Nat × Nat) :=
  (List.range (n - 1)).flatMap
    (fun i => (List.range' (i + 1) (n - (i + 1))).map (fun j => (i, j)))

/-- `brute_force_convex_hull` (lines 188-223): every index pair whose line
passes the one-sided test contributes the segment `(pts[i], pts[j])`. -/
def brute_force_convex_hull (pts : List point) : List line_segment :=
  (pair_indices pts.length).filterMap (fun ij =>
    let pi := pts.getD ij.1 originPt
    let pj := pts.getD ij.2 originPt
    if accept_edge pts pi pj then some (pi, pj) else none)

/-- Ordered insertion into a sorted duplicate-free list: the model of
`std::set<point>::insert` under the lexicographic `operator<`. -/
def set_insert (p : point) (l : List point) : List point :=
  match l with
  | [] => [p]
  | q :: rest =>
    if pt_lt p q then p :: q :: rest
    else if pt_lt q p then q :: set_insert p rest
    else q :: rest

/-- Lines 243-260 of `find_hull`: insert the first endpoints of all
segments into the set, then the second endpoints, and read the set off in
sorted order. -/
def hull_points (pts : List point) : List point :=
  let sgmts := brute_force_convex_hull pts
  let s1 := sgmts.foldl (fun acc sg => set_insert (get_first sg) acc) []
  sgmts.foldl (fun acc sg => set_insert (get_second sg) acc) s1

/-- The error message thrown at line 228. -/
def hull_error_msg : String :=
  "error: one or more points are required to find the convex hull"

/-- `find_hull` (lines 225-264): throws on an empty input, returns the
single point for a singleton input, and otherwise appends the deduplicated
sorted endpoints of the accepted segments to `ret_hull_points`. -/
def find_hull (pts : List point) (ret_hull_points : List point) :
    Except String (List point) :=
  match pts with
  | [] => Except.error hull_error_msg
  | [p] => Except.ok (ret_hull_points ++ [p])
  | _ => Except.ok (ret_hull_points ++ hull_points pts)

/-- From the spec (§4.1): `signed_value = a·P_k.x + b·P_k.y − c` with
`a = P_j.y − P_i.y`, `b = P_i.x − P_j.x`, `c = P_j.y·P_i.x − P_i.y·P_j.x`. -/
def spec_signed_value (pi pj pk : point) : ℚ :=
  (pj.2 - pi.2) * pk.1 + (pi.1 - pj.1) * pk.2 - (pj.2 * pi.1 - pi.2 * pj.1)

/-- From the spec (§4.1): some point of the full set has a strictly
negative signed value. -/
def spec_hasNegative (pts : List point) (pi pj : point) : Prop :=
  ∃ pk ∈ pts, spec_signed_value pi pj pk < 0

/-- From the spec (§4.1): some point of the full set has a strictly
positive signed value. -/
def spec_hasPositive (pts : List point) (pi pj : point) : Prop :=
  ∃ pk ∈ pts, 0 < spec_signed_value pi pj pk

/-! ### Basic facts about the lexicographic point order -/

lemma pt_lt_irrefl (p : point) : ¬ pt_lt p p := by
  simp [pt_lt]

lemma pt_lt_trans {p q r : point} (h1 : pt_lt p q) (h2 : pt_lt q r) :
    pt_lt p r := by
  rcases h1 with h1 | ⟨h1a, h1b⟩ <;> rcases h2 with h2 | ⟨h2a, h2b⟩
  · exact Or.inl (lt_trans h1 h2)
  · exact Or.inl (h2a ▸ h1)
  · exact Or.inl (h1a ▸ h2)
  · exact Or.inr ⟨h1a.trans h2a, lt_trans h1b h2b⟩

lemma pt_lt_asymm {p q : point} (h : pt_lt p q) : ¬ pt_lt q p := by
  intro h'
  exact pt_lt_irrefl p (pt_lt_trans h h')

lemma eq_of_not_pt_lt {p q : point} (h1 : ¬ pt_lt p q) (h2 : ¬ pt_lt q p) :
    p = q := by
  simp only [pt_lt, not_or, not_and, not_lt] at h1 h2
  have hx : p.1 = q.1 := le_antisymm h2.1 h1.1
  have hy : p.2 = q.2 := le_antisymm (h2.2 hx.symm) (h1.2 hx)
  exact Prod.ext hx hy

lemma pt_lt_ne {p q : point} (h : pt_lt p q) : p ≠ q := by
  rintro rfl
  exact pt_lt_irrefl p h

/-! ### `set_insert` models `std::set<point>::insert` -/

lemma mem_set_insert (x p : point) (l : List point) :
    x ∈ set_insert p l ↔ x = p ∨ x ∈ l := by
  induction l with
  | nil => simp [set_insert]
  | cons q rest ih =>
    by_cases h1 : pt_lt p q
    · simp [set_insert, h1]
    · by_cases h2 : pt_lt q p
      · simp only [set_insert, if_neg h1, if_pos h2, List.mem_cons, ih]
        tauto
      · have : p = q := eq_of_not_pt_lt h1 h2
        subst this
        simp only [set_insert, if_neg h1, if_neg h2, List.mem_cons]
        tauto

lemma pairwise_set_insert (p : point) (l : List point)
    (h : List.Pairwise pt_lt l) :
    List.Pairwise pt_lt (set_insert p l) := by
  induction l with
  | nil => simp [set_insert, h]
  | cons q rest ih =>
    rcases List.pairwise_cons.mp h with ⟨hq, hrest⟩
    by_cases h1 : pt_lt p q
    · rw [set_insert, if_pos h1]
      refine List.pairwise_cons.mpr ⟨?_, h⟩
      intro a ha
      rcases List.mem_cons.mp ha with rfl | ha
      · exact h1
      · exact pt_lt_trans h1 (hq a ha)
    · by_cases h2 : pt_lt q p
      · rw [set_insert, if_neg h1, if_pos h2]
        refine List.pairwise_cons.mpr ⟨?_, ih hrest⟩
        intro a ha
        rcases (mem_set_insert a p rest).mp ha with rfl | ha
        · exact h2
        · exact hq a ha
      · rw [set_insert, if_neg h1, if_neg h2]
        exact h

lemma mem_foldl_set_insert (f : line_segment → point) :
    ∀ (l : List line_segment) (acc : List point) (x : point),
      x ∈ l.foldl (fun acc sg => set_insert (f sg) acc) acc ↔
        (∃ sg ∈ l, x = f sg) ∨ x ∈ acc := by
  intro l
  induction l with
  | nil => simp
  | cons sg rest ih =>
    intro acc x
    simp only [List.foldl_cons, ih, mem_set_insert, List.mem_cons]
    constructor
    · rintro (⟨sg', h1, h2⟩ | h | h)
      · exact Or.inl ⟨sg', Or.inr h1, h2⟩
      · exact Or.inl ⟨sg, Or.inl rfl, h⟩
      · exact Or.inr h
    · rintro (⟨sg', (rfl | h1), h2⟩ | h)
      · exact Or.inr (Or.inl h2)
      · exact Or.inl ⟨sg', h1, h2⟩
      · exact Or.inr (Or.inr h)

lemma pairwise_foldl_set_insert (f : line_segment → point) :
    ∀ (l : List line_segment) (acc : List point),
      List.Pairwise pt_lt acc →
      List.Pairwise pt_lt (l.foldl (fun acc sg => set_insert (f sg) acc) acc) := by
  intro l
  induction l with
  | nil => intro acc h; simpa using h
  | cons sg rest ih =>
    intro acc h
    exact ih _ (pairwise_set_insert _ _ h)

/-! ### The endpoint set extracted by `find_hull` -/

lemma mem_hull_points (pts : List point) (x : point) :
    x ∈ hull_points pts ↔
      ∃ sg ∈ brute_force_convex_hull pts, x = get_first sg ∨ x = get_second sg := by
  simp only [hull_points, mem_foldl_set_insert, List.not_mem_nil, or_false]
  constructor
  · rintro (⟨sg, h1, h2⟩ | ⟨sg, h1, h2⟩)
    · exact ⟨sg, h1, Or.inr h2⟩
    · exact ⟨sg, h1, Or.inl h2⟩
  · rintro ⟨sg, h1, rfl | rfl⟩
    · exact Or.inr ⟨sg, h1, rfl⟩
    · exact Or.inl ⟨sg, h1, rfl⟩

lemma pairwise_hull_points (pts : List point) :
    List.Pairwise pt_lt (hull_points pts) :=
  pairwise_foldl_set_insert _ _ _
    (pairwise_foldl_set_insert _ _ _ List.Pairwise.nil)

lemma find_hull_eq_of_two_le (pts : List point) (ret : List point)
    (h : 2 ≤ pts.length) :
    find_hull pts ret = Except.ok (ret ++ hull_points pts) := by
  match pts, h with
  | p :: q :: rest, _ => rfl

/-! ### The loop structure of `brute_force_convex_hull` -/

lemma mem_pair_indices {n i j : ℕ} :
    (i, j) ∈ pair_indices n ↔ i < j ∧ j < n := by
  simp only [pair_indices, List.mem_flatMap, List.mem_range, List.mem_map,
    List.mem_range'_1, Prod.mk.injEq]
  constructor
  · rintro ⟨a, ha, b, ⟨hb1, hb2⟩, rfl, rfl⟩
    omega
  · rintro ⟨hij, hjn⟩
    exact ⟨i, by omega, j, ⟨by omega, by omega⟩, rfl, rfl⟩

lemma mem_bfch {pts : List point} {sg : line_segment} :
    sg ∈ brute_force_convex_hull pts ↔
      ∃ i j, i < j ∧ j < pts.length ∧
        accept_edge pts (pts.getD i originPt) (pts.getD j originPt) = true ∧
        sg = (pts.getD i originPt, pts.getD j originPt) := by
  simp only [brute_force_convex_hull, List.mem_filterMap]
  constructor
  · rintro ⟨⟨i, j⟩, hmem, hf⟩
    rw [mem_pair_indices] at hmem
    simp only at hf
    split at hf
    · exact ⟨i, j, hmem.1, hmem.2, by assumption, (Option.some.inj hf).symm⟩
    · exact absurd hf (by simp)
  · rintro ⟨i, j, hij, hjn, hacc, rfl⟩
    refine ⟨(i, j), mem_pair_indices.mpr ⟨hij, hjn⟩, ?_⟩
    simp only [hacc, if_pos]

lemma getD_mem {l : List point} {i : ℕ} (h : i < l.length) :
    l.getD i originPt ∈ l := by
  rw [List.getD_eq_getElem l originPt h]
  exact List.getElem_mem h

/-! ### The acceptance test -/

lemma hasLT_iff (pts : List point) (pi pj : point) :
    hasLT pts pi pj = true ↔ ∃ pk ∈ pts, side_value pi pj pk < 0 := by
  simp [hasLT, List.any_eq_true]

lemma hasGT_iff (pts : List point) (pi pj : point) :
    hasGT pts pi pj = true ↔ ∃ pk ∈ pts, 0 < side_value pi pj pk := by
  simp [hasGT, List.any_eq_true]

lemma bool_eq_of_iff {a b : Bool} (h : a = true ↔ b = true) : a = b := by
  cases a <;> cases b <;> simp_all

lemma accept_edge_iff (pts : List point) (pi pj : point) :
    accept_edge pts pi pj = true ↔
      ¬((∃ pk ∈ pts, side_value pi pj pk < 0) ∧
        (∃ pk ∈ pts, 0 < side_value pi pj pk)) := by
  rw [accept_edge,
    show ∀ a b : Bool, ((!(a && b)) = true ↔ ¬(a = true ∧ b = true)) from by decide,
    hasLT_iff, hasGT_iff]

lemma side_value_self_first (pi pj : point) : side_value pi pj pi = 0 := by
  simp only [side_value, coeff_a, coeff_b, coeff_c]
  ring

lemma side_value_self_second (pi pj : point) : side_value pi pj pj = 0 := by
  simp only [side_value, coeff_a, coeff_b, coeff_c]
  ring

lemma side_value_swap (pi pj pk : point) :
    side_value pj pi pk = - side_value pi pj pk := by
  simp only [side_value, coeff_a, coeff_b, coeff_c]
  ring

lemma hasLT_swap (pts : List point) (u v : point) :
    hasLT pts v u = hasGT pts u v := by
  apply bool_eq_of_iff
  rw [hasLT_iff, hasGT_iff]
  constructor
  · rintro ⟨pk, h1, h2⟩
    rw [side_value_swap] at h2
    exact ⟨pk, h1, by linarith⟩
  · rintro ⟨pk, h1, h2⟩
    refine ⟨pk, h1, ?_⟩
    rw [side_value_swap]
    linarith

lemma hasGT_swap (pts : List point) (u v : point) :
    hasGT pts v u = hasLT pts u v := by
  apply bool_eq_of_iff
  rw [hasLT_iff, hasGT_iff]
  constructor
  · rintro ⟨pk, h1, h2⟩
    rw [side_value_swap] at h2
    exact ⟨pk, h1, by linarith⟩
  · rintro ⟨pk, h1, h2⟩
    refine ⟨pk, h1, ?_⟩
    rw [side_value_swap]
    linarith

lemma accept_edge_symm (pts : List point) (u v : point) :
    accept_edge pts u v = accept_edge pts v u := by
  rw [accept_edge, accept_edge, hasLT_swap pts u v, hasGT_swap pts u v, Bool.and_comm]

lemma accept_edge_mono {pts pts' : List point} (u v : point)
    (hsub : ∀ x ∈ pts', x ∈ pts)
    (h : accept_edge pts u v = true) :
    accept_edge pts' u v = true := by
  rw [accept_edge_iff] at h ⊢
  rintro ⟨⟨a, ha, hav⟩, ⟨b, hb, hbv⟩⟩
  exact h ⟨⟨a, hsub a ha, hav⟩, ⟨b, hsub b hb, hbv⟩⟩

/-! ### Existence of an accepted edge (needed for idempotence) -/

/-- Around a lexicographically minimal point `p`, the relation
"`b` lies on the non-positive side of the line from `p` through `a`"
is transitive: the standard angular-order argument, carried out on the
signed side values. -/
lemma side_value_trans_of_lex_min {p a b c : point}
    (ha : pt_lt p a) (hb : pt_lt p b) (hc : pt_lt p c)
    (h1 : side_value p a b ≤ 0) (h2 : side_value p b c ≤ 0) :
    side_value p a c ≤ 0 := by
  have hid : side_value p a c * (b.1 - p.1) =
      side_value p a b * (c.1 - p.1) + side_value p b c * (a.1 - p.1) := by
    simp only [side_value, coeff_a, coeff_b, coeff_c]
    ring
  have ha1 : 0 ≤ a.1 - p.1 := by
    rcases ha with h | ⟨h, _⟩ <;> linarith
  have hc1 : 0 ≤ c.1 - p.1 := by
    rcases hc with h | ⟨h, _⟩ <;> linarith
  rcases hb with hbx | ⟨hbx, hby⟩
  · -- b lies strictly to the right of p
    have hbpos : 0 < b.1 - p.1 := by linarith
    nlinarith [mul_nonneg (neg_nonneg.mpr h1) hc1,
      mul_nonneg (neg_nonneg.mpr h2) ha1]
  · -- b lies straight above p
    have hb1 : b.1 = p.1 := hbx.symm
    have h2' : side_value p b c = (b.2 - p.2) * (c.1 - p.1) := by
      simp only [side_value, coeff_a, coeff_b, coeff_c]
      rw [hb1]
      ring
    have hcx : c.1 = p.1 := by
      by_contra hne
      have : 0 < c.1 - p.1 := lt_of_le_of_ne hc1 (by intro h; exact hne (by linarith))
      nlinarith [h2'.symm.trans_le h2]
    have hcy : 0 < c.2 - p.2 := by
      rcases hc with h | ⟨_, h⟩
      · exact absurd hcx (by intro h'; linarith)
      · linarith
    have hval : side_value p a c = -((a.1 - p.1) * (c.2 - p.2)) := by
      simp only [side_value, coeff_a, coeff_b, coeff_c]
      rw [hcx]
      ring
    rw [hval]
    nlinarith

/-- A finite non-empty list with a relation that is total and transitive on
its members has a member below all others. -/
lemma exists_rel_min {α : Type} (R : α → α → Prop) :
    ∀ (l : List α), l ≠ [] →
      (∀ x ∈ l, ∀ y ∈ l, R x y ∨ R y x) →
      (∀ x ∈ l, ∀ y ∈ l, ∀ z ∈ l, R x y → R y z → R x z) →
      ∃ m ∈ l, ∀ r ∈ l, R m r := by
  intro l
  induction l with
  | nil => intro h; exact absurd rfl h
  | cons a t ih =>
    intro _ htot htrans
    by_cases ht : t = []
    · subst ht
      refine ⟨a, List.mem_cons_self a [], ?_⟩
      intro r hr
      rcases List.mem_cons.mp hr with rfl | hr
      · rcases htot r (List.mem_cons_self r []) r (List.mem_cons_self r []) with h | h
        · exact h
        · exact h
      · exact absurd hr (List.not_mem_nil r)
    · have hsub : ∀ x ∈ t, x ∈ a :: t := fun x hx => List.mem_cons_of_mem a hx
      obtain ⟨m, hm, hmin⟩ := ih ht
        (fun x hx y hy => htot x (hsub x hx) y (hsub y hy))
        (fun x hx y hy z hz => htrans x (hsub x hx) y (hsub y hy) z (hsub z hz))
      have hma : a ∈ a :: t := List.mem_cons_self a t
      have hmm : m ∈ a :: t := hsub m hm
      rcases htot a hma m hmm with h | h
      · refine ⟨a, hma, ?_⟩
        intro r hr
        rcases List.mem_cons.mp hr with rfl | hr
        · rcases htot r hma r hma with h' | h'
          · exact h'
          · exact h'
        · exact htrans a hma m hmm r (hsub r hr) h (hmin r hr)
      · refine ⟨m, hmm, ?_⟩
        intro r hr
        rcases List.mem_cons.mp hr with rfl | hr
        · exact h
        · exact hmin r hr

lemma side_value_antisymm_ends (p a b : point) :
    side_value p a b = - side_value p b a := by
  simp only [side_value, coeff_a, coeff_b, coeff_c]
  ring

lemma exists_lex_min (pts : List point) (hne : pts ≠ []) :
    ∃ p ∈ pts, ∀ r ∈ pts, ¬ pt_lt r p := by
  apply exists_rel_min (fun x y => ¬ pt_lt y x) pts hne
  · intro x _ y _
    by_contra h
    push_neg at h
    exact pt_lt_asymm h.1 h.2
  · intro x _ y _ z _ hxy hyz
    intro hzx
    by_cases hyz2 : pt_lt y z
    · exact hxy (pt_lt_trans hyz2 hzx)
    · have heq : y = z := eq_of_not_pt_lt hyz2 hyz
      refine hxy ?_
      rw [heq]
      exact hzx

lemma exists_ne_of_nodup (pts : List point) (h2 : 2 ≤ pts.length)
    (hnd : pts.Nodup) (p : point) : ∃ b ∈ pts, b ≠ p := by
  match pts, h2 with
  | x :: y :: rest, _ =>
    have hxy : x ≠ y := by
      rcases List.nodup_cons.mp hnd with ⟨hx, _⟩
      intro h
      exact hx (h ▸ List.mem_cons_self y rest)
    by_cases hx : x = p
    · exact ⟨y, List.mem_cons_of_mem x (List.mem_cons_self y rest),
        fun h => hxy (hx ▸ h ▸ rfl)⟩
    · exact ⟨x, List.mem_cons_self x (y :: rest), hx⟩

lemma exists_accepted_edge (pts : List point) (h2 : 2 ≤ pts.length)
    (hnd : pts.Nodup) :
    ∃ u v, u ∈ pts ∧ v ∈ pts ∧ u ≠ v ∧ accept_edge pts u v = true := by
  have hne : pts ≠ [] := by
    intro h
    rw [h] at h2
    simp at h2
  obtain ⟨p, hp, hpmin⟩ := exists_lex_min pts hne
  have hmem_others : ∀ x, x ∈ pts.filter (fun r => decide (r ≠ p)) ↔ x ∈ pts ∧ x ≠ p := by
    intro x
    rw [List.mem_filter, decide_eq_true_eq]
  have hothers_ne : pts.filter (fun r => decide (r ≠ p)) ≠ [] := by
    obtain ⟨b, hb, hbp⟩ := exists_ne_of_nodup pts h2 hnd p
    exact List.ne_nil_of_mem ((hmem_others b).mpr ⟨hb, hbp⟩)
  have hH : ∀ x ∈ pts.filter (fun r => decide (r ≠ p)), pt_lt p x := by
    intro x hx
    rcases (hmem_others x).mp hx with ⟨hxp, hxne⟩
    by_contra hnot
    exact hxne (eq_of_not_pt_lt (hpmin x hxp) hnot)
  obtain ⟨m, hm, hmin⟩ := exists_rel_min (fun x y => side_value p x y ≤ 0)
    (pts.filter (fun r => decide (r ≠ p))) hothers_ne
    (by
      intro x _ y _
      have := side_value_antisymm_ends p x y
      rcases le_total (side_value p x y) 0 with h | h
      · exact Or.inl h
      · exact Or.inr (by linarith))
    (by
      intro x hx y hy z hz h1 h2
      exact side_value_trans_of_lex_min (hH x hx) (hH y hy) (hH z hz) h1 h2)
  rcases (hmem_others m).mp hm with ⟨hmp, hmne⟩
  have hall : ∀ r ∈ pts, side_value p m r ≤ 0 := by
    intro r hr
    by_cases hrp : r = p
    · subst hrp
      rw [side_value_self_first]
    · exact hmin r ((hmem_others r).mpr ⟨hr, hrp⟩)
  refine ⟨p, m, hp, hmp, fun h => hmne h.symm, ?_⟩
  rw [accept_edge_iff]
  rintro ⟨_, ⟨pk, hk, hv⟩⟩
  linarith [hall pk hk]

lemma accepted_pair_mem_bfch {pts : List point} {u v : point}
    (hu : u ∈ pts) (hv : v ∈ pts) (huv : u ≠ v)
    (hacc : accept_edge pts u v = true) :
    (u, v) ∈ brute_force_convex_hull pts ∨
      (v, u) ∈ brute_force_convex_hull pts := by
  obtain ⟨i, hi, hieq⟩ := List.mem_iff_getElem.mp hu
  obtain ⟨j, hj, hjeq⟩ := List.mem_iff_getElem.mp hv
  have hgi : pts.getD i originPt = u := by
    rw [List.getD_eq_getElem pts originPt hi]
    exact hieq
  have hgj : pts.getD j originPt = v := by
    rw [List.getD_eq_getElem pts originPt hj]
    exact hjeq
  have hij : i ≠ j := by
    intro h
    exact huv (by rw [← hgi, ← hgj, h])
  rcases Nat.lt_or_ge i j with h | h
  · exact Or.inl (mem_bfch.mpr ⟨i, j, h, hj, by rw [hgi, hgj]; exact hacc,
      by rw [hgi, hgj]⟩)
  · have h' : j < i := lt_of_le_of_ne h (Ne.symm hij)
    exact Or.inr (mem_bfch.mpr ⟨j, i, h', hi,
      by rw [hgi, hgj, accept_edge_symm]; exact hacc, by rw [hgi, hgj]⟩)

lemma bfch_endpoints_mem {pts : List point} {sg : line_segment}
    (h : sg ∈ brute_force_convex_hull pts) : sg.1 ∈ pts ∧ sg.2 ∈ pts := by
  obtain ⟨i, j, hij, hjn, _, rfl⟩ := mem_bfch.mp h
  exact ⟨getD_mem (lt_trans hij hjn), getD_mem hjn⟩

lemma bfch_endpoints_ne {pts : List point} {sg : line_segment}
    (hnd : pts.Nodup) (h : sg ∈ brute_force_convex_hull pts) :
    sg.1 ≠ sg.2 := by
  obtain ⟨i, j, hij, hjn, _, rfl⟩ := mem_bfch.mp h
  simp only
  rw [List.getD_eq_getElem pts originPt (lt_trans hij hjn),
    List.getD_eq_getElem pts originPt hjn]
  intro heq
  exact absurd (List.Nodup.getElem_inj_iff hnd |>.mp heq) (Nat.ne_of_lt hij)

lemma endpoints_mem_hull_points {pts : List point} {sg : line_segment}
    (h : sg ∈ brute_force_convex_hull pts) :
    sg.1 ∈ hull_points pts ∧ sg.2 ∈ hull_points pts :=
  ⟨(mem_hull_points pts sg.1).mpr ⟨sg, h, Or.inl rfl⟩,
   (mem_hull_points pts sg.2).mpr ⟨sg, h, Or.inr rfl⟩⟩

/-! ### The claims -/

lemma spec_signed_value_eq_side_value :
    spec_signed_value = side_value := rfl

/-- C1: for n ≥ 2 points and any index pair i < j, the edge enumerator
accepts the pair (its segment is produced) iff NOT (hasNegative AND
hasPositive), where the flags use the spec's signed-value formula over the
full point set; moreover the two defining points themselves always have
signed value 0 (hence collinear points, contributing 0, never disqualify
an edge). -/
theorem claim_C1 (pts : List point) (i j : ℕ) (hij : i < j)
    (hj : j < pts.length) :
    ((pts.getD i originPt, pts.getD j originPt) ∈ brute_force_convex_hull pts ↔
      ¬(spec_hasNegative pts (pts.getD i originPt) (pts.getD j originPt) ∧
        spec_hasPositive pts (pts.getD i originPt) (pts.getD j originPt))) ∧
    spec_signed_value (pts.getD i originPt) (pts.getD j originPt)
      (pts.getD i originPt) = 0 ∧
    spec_signed_value (pts.getD i originPt) (pts.getD j originPt)
      (pts.getD j originPt) = 0 := by
  have hneg : ∀ pi pj, spec_hasNegative pts pi pj ↔
      ∃ pk ∈ pts, side_value pi pj pk < 0 := by
    intro pi pj
    rw [spec_hasNegative, spec_signed_value_eq_side_value]
  have hpos : ∀ pi pj, spec_hasPositive pts pi pj ↔
      ∃ pk ∈ pts, 0 < side_value pi pj pk := by
    intro pi pj
    rw [spec_hasPositive, spec_signed_value_eq_side_value]
  refine ⟨?_, ?_, ?_⟩
  · rw [hneg, hpos]
    constructor
    · intro hmem
      obtain ⟨a, b, hab, hbn, hacc, heq⟩ := mem_bfch.mp hmem
      rcases Prod.mk.injEq .. ▸ heq with ⟨h1, h2⟩
      rw [h1, h2]
      exact (accept_edge_iff pts _ _).mp hacc
    · intro hns
      exact mem_bfch.mpr ⟨i, j, hij, hj, (accept_edge_iff pts _ _).mpr hns, rfl⟩
  · rw [spec_signed_value_eq_side_value]
    exact side_value_self_first _ _
  · rw [spec_signed_value_eq_side_value]
    exact side_value_self_second _ _

/-- Witness for C1 at the two-point input [(0,0), (1,1)] with i = 0, j = 1. -/
theorem claim_C1_witness :
    ((((0:ℚ),(0:ℚ)), ((1:ℚ),(1:ℚ))) ∈
        brute_force_convex_hull [((0:ℚ),(0:ℚ)), ((1:ℚ),(1:ℚ))] ↔
      ¬(spec_hasNegative [((0:ℚ),(0:ℚ)), ((1:ℚ),(1:ℚ))] ((0:ℚ),(0:ℚ)) ((1:ℚ),(1:ℚ)) ∧
        spec_hasPositive [((0:ℚ),(0:ℚ)), ((1:ℚ),(1:ℚ))] ((0:ℚ),(0:ℚ)) ((1:ℚ),(1:ℚ)))) ∧
    spec_signed_value ((0:ℚ),(0:ℚ)) ((1:ℚ),(1:ℚ)) ((0:ℚ),(0:ℚ)) = 0 ∧
    spec_signed_value ((0:ℚ),(0:ℚ)) ((1:ℚ),(1:ℚ)) ((1:ℚ),(1:ℚ)) = 0 :=
  claim_C1 [((0:ℚ),(0:ℚ)), ((1:ℚ),(1:ℚ))] 0 1 (by norm_num) (by norm_num)

/-- C2: for n ≥ 2 the returned hull sequence contains exactly the distinct
endpoints (origins and destinations) of the accepted edges; a singleton
input returns exactly its single point. -/
theorem claim_C2 (pts out : List point) (h2 : 2 ≤ pts.length)
    (h : find_hull pts [] = Except.ok out) :
    (∀ p, p ∈ out ↔ ∃ sg ∈ brute_force_convex_hull pts,
      p = get_first sg ∨ p = get_second sg) ∧
    (∀ q : point, find_hull [q] [] = Except.ok [q]) := by
  rw [find_hull_eq_of_two_le pts [] h2, List.nil_append] at h
  have hout : hull_points pts = out := Except.ok.inj h
  subst hout
  exact ⟨fun p => mem_hull_points pts p, fun q => rfl⟩

/-- Witness for C2 at the two-point input [(0,0), (1,1)]. -/
theorem claim_C2_witness :
    find_hull [((0:ℚ),(0:ℚ)), ((1:ℚ),(1:ℚ))] [] =
      Except.ok [((0:ℚ),(0:ℚ)), ((1:ℚ),(1:ℚ))] ∧
    (∀ q : point, find_hull [q] [] = Except.ok [q]) := by
  have hfh : find_hull [((0:ℚ),(0:ℚ)), ((1:ℚ),(1:ℚ))] [] =
      Except.ok [((0:ℚ),(0:ℚ)), ((1:ℚ),(1:ℚ))] := by
    norm_num [find_hull, hull_points, brute_force_convex_hull, pair_indices,
      accept_edge, hasLT, hasGT, side_value, coeff_a, coeff_b, coeff_c,
      set_insert, get_first, get_second, pt_lt, originPt, List.range',
      List.filterMap, List.foldl]
  exact ⟨hfh, (claim_C2 _ _ (by norm_num) hfh).2⟩

/-- C3: for every non-empty input, the returned sequence is strictly
ascending in the lexicographic order (x, then y) and has no duplicates. -/
theorem claim_C3 (pts out : List point) (hne : pts ≠ [])
    (h : find_hull pts [] = Except.ok out) :
    List.Pairwise pt_lt out ∧ out.Nodup := by
  match pts, hne with
  | [p], _ =>
    have hout : [p] = out := by
      rw [show find_hull [p] [] = Except.ok [p] from rfl] at h
      exact Except.ok.inj h
    subst hout
    exact ⟨List.pairwise_singleton _ _, List.nodup_singleton _⟩
  | a :: b :: rest, _ =>
    rw [find_hull_eq_of_two_le (a :: b :: rest) [] (by simp), List.nil_append] at h
    have hout : hull_points (a :: b :: rest) = out := Except.ok.inj h
    subst hout
    refine ⟨pairwise_hull_points _, ?_⟩
    exact (pairwise_hull_points _).imp pt_lt_ne

/-- Witness for C3 at the singleton input [(2,3)]. -/
theorem claim_C3_witness :
    List.Pairwise pt_lt [((2:ℚ),(3:ℚ))] ∧ ([((2:ℚ),(3:ℚ))] : List point).Nodup :=
  claim_C3 [((2:ℚ),(3:ℚ))] [((2:ℚ),(3:ℚ))] (by simp) rfl

/-- C4: for every accepted edge, no input point has a strictly negative
signed value while another has a strictly positive one: all input points
lie in one closed half-plane of the edge's line. -/
theorem claim_C4 (pts : List point) (sg : line_segment)
    (hsg : sg ∈ brute_force_convex_hull pts) :
    ¬((∃ pk ∈ pts, side_value (get_first sg) (get_second sg) pk < 0) ∧
      (∃ pk ∈ pts, 0 < side_value (get_first sg) (get_second sg) pk)) := by
  obtain ⟨i, j, hij, hj, hacc, rfl⟩ := mem_bfch.mp hsg
  exact (accept_edge_iff pts _ _).mp hacc

/-- Witness for C4 at the two-point input [(0,0), (1,1)] and its sole edge. -/
theorem claim_C4_witness :
    ¬((∃ pk ∈ [((0:ℚ),(0:ℚ)), ((1:ℚ),(1:ℚ))],
        side_value ((0:ℚ),(0:ℚ)) ((1:ℚ),(1:ℚ)) pk < 0) ∧
      (∃ pk ∈ [((0:ℚ),(0:ℚ)), ((1:ℚ),(1:ℚ))],
        0 < side_value ((0:ℚ),(0:ℚ)) ((1:ℚ),(1:ℚ)) pk)) := by
  have hb : brute_force_convex_hull [((0:ℚ),(0:ℚ)), ((1:ℚ),(1:ℚ))] =
      [(((0:ℚ),(0:ℚ)), ((1:ℚ),(1:ℚ)))] := by
    norm_num [brute_force_convex_hull, pair_indices, accept_edge, hasLT, hasGT,
      side_value, coeff_a, coeff_b, coeff_c, originPt, List.range', List.filterMap]
  exact claim_C4 _ (((0:ℚ),(0:ℚ)), ((1:ℚ),(1:ℚ))) (by rw [hb]; exact List.mem_singleton_self _)

/-- C5: `find_hull` fails, with the fixed invalid-input message, exactly on
the empty input; the error is produced by the initial guard and no other
failure path exists. -/
theorem claim_C5 (pts ret : List point) :
    (find_hull pts ret = Except.error hull_error_msg ↔ pts = []) ∧
    (∀ msg, find_hull pts ret = Except.error msg →
      pts = [] ∧ msg = hull_error_msg) := by
  match pts with
  | [] =>
    refine ⟨by simp [find_hull], ?_⟩
    intro msg h
    exact ⟨rfl, (Except.error.inj h).symm⟩
  | [p] => exact ⟨by simp [find_hull], by simp [find_hull]⟩
  | a :: b :: rest => exact ⟨by simp [find_hull], by simp [find_hull]⟩

/-- Witness for C5 at the empty input. -/
theorem claim_C5_witness :
    find_hull ([] : List point) [] = Except.error hull_error_msg :=
  (claim_C5 [] []).1.mpr rfl

/-- C6: a singleton input yields exactly its point (without the edge
enumerator entering the result), and in particular {(2,3)} yields
[(2,3)]. -/
theorem claim_C6 :
    (∀ p : point, find_hull [p] [] = Except.ok [p]) ∧
    find_hull [((2:ℚ), (3:ℚ))] [] = Except.ok [((2:ℚ), (3:ℚ))] :=
  ⟨fun _ => rfl, rfl⟩

lemma two_le_length_of_two_mem {l : List point} {u v : point}
    (hu : u ∈ l) (hv : v ∈ l) (huv : u ≠ v) : 2 ≤ l.length := by
  match l with
  | [] => exact absurd hu (List.not_mem_nil u)
  | [x] =>
    rw [List.mem_singleton] at hu hv
    exact absurd (hu.trans hv.symm) huv
  | x :: y :: t => simp

/-- C7: running `find_hull` on its own output (for a non-empty,
duplicate-free input) succeeds and returns the same set of points. -/
theorem claim_C7 (pts out1 : List point) (hne : pts ≠ []) (hnd : pts.Nodup)
    (h1 : find_hull pts [] = Except.ok out1) :
    ∃ out2, find_hull out1 [] = Except.ok out2 ∧ ∀ p, p ∈ out2 ↔ p ∈ out1 := by
  match pts, hne with
  | [p], _ =>
    have hout : [p] = out1 := by
      rw [show find_hull [p] [] = Except.ok [p] from rfl] at h1
      exact Except.ok.inj h1
    subst hout
    exact ⟨[p], rfl, fun q => Iff.rfl⟩
  | a :: b :: rest, _ =>
    have h2 : 2 ≤ (a :: b :: rest).length := by simp
    rw [find_hull_eq_of_two_le (a :: b :: rest) [] h2, List.nil_append] at h1
    have hout : hull_points (a :: b :: rest) = out1 := Except.ok.inj h1
    subst hout
    -- out1 is a subset of the input
    have hsubA : ∀ x ∈ hull_points (a :: b :: rest), x ∈ a :: b :: rest := by
      intro x hx
      obtain ⟨sg, hs, hend⟩ := (mem_hull_points _ x).mp hx
      rcases hend with rfl | rfl
      · exact (bfch_endpoints_mem hs).1
      · exact (bfch_endpoints_mem hs).2
    -- every hull point reappears as an accepted-edge endpoint of the rerun
    have hclosed : ∀ x ∈ hull_points (a :: b :: rest),
        x ∈ hull_points (hull_points (a :: b :: rest)) := by
      intro x hx
      obtain ⟨sg, hs, hend⟩ := (mem_hull_points _ x).mp hx
      have hmemA := endpoints_mem_hull_points hs
      have hneAB : sg.1 ≠ sg.2 := bfch_endpoints_ne hnd hs
      have hacc' : accept_edge (a :: b :: rest) sg.1 sg.2 = true := by
        obtain ⟨i, j, hij, hj, haccij, hsgeq⟩ := mem_bfch.mp hs
        rw [hsgeq]
        exact haccij
      have haccA : accept_edge (hull_points (a :: b :: rest)) sg.1 sg.2 = true :=
        accept_edge_mono sg.1 sg.2 hsubA hacc'
      rcases accepted_pair_mem_bfch hmemA.1 hmemA.2 hneAB haccA with h' | h'
      · rcases hend with rfl | rfl
        · exact (endpoints_mem_hull_points h').1
        · exact (endpoints_mem_hull_points h').2
      · rcases hend with rfl | rfl
        · exact (endpoints_mem_hull_points h').2
        · exact (endpoints_mem_hull_points h').1
    -- the first hull has at least two (distinct) points
    obtain ⟨u, v, hu, hv, huv, hacc⟩ :=
      exists_accepted_edge (a :: b :: rest) h2 hnd
    have huvA : u ∈ hull_points (a :: b :: rest) ∧
        v ∈ hull_points (a :: b :: rest) := by
      rcases accepted_pair_mem_bfch hu hv huv hacc with h' | h'
      · exact ⟨(endpoints_mem_hull_points h').1, (endpoints_mem_hull_points h').2⟩
      · exact ⟨(endpoints_mem_hull_points h').2, (endpoints_mem_hull_points h').1⟩
    have hA2 : 2 ≤ (hull_points (a :: b :: rest)).length :=
      two_le_length_of_two_mem huvA.1 huvA.2 huv
    refine ⟨hull_points (hull_points (a :: b :: rest)), ?_, ?_⟩
    · rw [find_hull_eq_of_two_le _ [] hA2, List.nil_append]
    · intro p
      constructor
      · intro hp
        obtain ⟨sg, hs, hend⟩ := (mem_hull_points _ p).mp hp
        rcases hend with rfl | rfl
        · exact (bfch_endpoints_mem hs).1
        · exact (bfch_endpoints_mem hs).2
      · exact hclosed p

/-- Witness for C7 at the two-point input [(0,0), (1,1)]. -/
theorem claim_C7_witness :
    ∃ out2, find_hull [((0:ℚ),(0:ℚ)), ((1:ℚ),(1:ℚ))] [] = Except.ok out2 ∧
      ∀ p, p ∈ out2 ↔ p ∈ [((0:ℚ),(0:ℚ)), ((1:ℚ),(1:ℚ))] := by
  have hfh : find_hull [((0:ℚ),(0:ℚ)), ((1:ℚ),(1:ℚ))] [] =
      Except.ok [((0:ℚ),(0:ℚ)), ((1:ℚ),(1:ℚ))] := by
    norm_num [find_hull, hull_points, brute_force_convex_hull, pair_indices,
      accept_edge, hasLT, hasGT, side_value, coeff_a, coeff_b, coeff_c,
      set_insert, get_first, get_second, pt_lt, originPt, List.range',
      List.filterMap, List.foldl]
  exact claim_C7 [((0:ℚ),(0:ℚ)), ((1:ℚ),(1:ℚ))] [((0:ℚ),(0:ℚ)), ((1:ℚ),(1:ℚ))]
    (by simp) (by norm_num) hfh

/-- C8: on the square plus its centre, `find_hull` returns exactly the four
corners in lexicographic order, and the interior point (1,1) is absent. -/
theorem claim_C8 :
    find_hull [((0:ℚ),(0:ℚ)), ((0:ℚ),(2:ℚ)), ((1:ℚ),(1:ℚ)), ((2:ℚ),(0:ℚ)),
        ((2:ℚ),(2:ℚ))] [] =
      Except.ok [((0:ℚ),(0:ℚ)), ((0:ℚ),(2:ℚ)), ((2:ℚ),(0:ℚ)), ((2:ℚ),(2:ℚ))] ∧
    ((1:ℚ),(1:ℚ)) ∉
      [((0:ℚ),(0:ℚ)), ((0:ℚ),(2:ℚ)), ((2:ℚ),(0:ℚ)), ((2:ℚ),(2:ℚ))] := by
  constructor
  · norm_num [find_hull, hull_points, brute_force_convex_hull, pair_indices,
      accept_edge, hasLT, hasGT, side_value, coeff_a, coeff_b, coeff_c,
      set_insert, get_first, get_second, pt_lt, originPt, List.range',
      List.filterMap, List.foldl]
  · norm_num [Prod.ext_iff]

/-- C9: with the n ≥ 2 precondition established by `find_hull`'s guards,
the `size_t` loop bound `pts.size() - 1` equals the exact n - 1 (no
wrap-around), every visited index pair is strictly within bounds, and the
empty vector, on which the unsigned bound would wrap, never reaches the
enumerator because `find_hull` raises the error first. -/
theorem claim_C9 (pts : List point) (h2 : 2 ≤ pts.length)
    (hcap : pts.length < 2 ^ 64) :
    size_t_sub_one pts.length = pts.length - 1 ∧
    (∀ ij ∈ pair_indices pts.length,
      ij.1 < pts.length ∧ ij.2 < pts.length ∧ ij.1 < ij.2) ∧
    (∀ ret, find_hull [] ret = Except.error hull_error_msg) := by
  refine ⟨?_, ?_, fun ret => rfl⟩
  · have hpow : (2:ℕ) ^ 64 = 18446744073709551616 := by norm_num
    rw [size_t_sub_one, hpow]
    rw [hpow] at hcap
    omega
  · rintro ⟨i, j⟩ hmem
    rw [mem_pair_indices] at hmem
    exact ⟨lt_trans hmem.1 hmem.2, hmem.2, hmem.1⟩

/-- Witness for C9 at the two-point input [(0,0), (1,1)]. -/
theorem claim_C9_witness :
    size_t_sub_one ([((0:ℚ),(0:ℚ)), ((1:ℚ),(1:ℚ))] : List point).length =
      ([((0:ℚ),(0:ℚ)), ((1:ℚ),(1:ℚ))] : List point).length - 1 :=
  (claim_C9 [((0:ℚ),(0:ℚ)), ((1:ℚ),(1:ℚ))] (by norm_num) (by norm_num)).1

/-- C10: `find_hull` (a pure function of its input here) only appends to
the output vector: the prior contents of `ret_hull_points` are preserved
in place and the hull points computed for the input are appended after
them. -/
theorem claim_C10 (pts ret : List point) (hne : pts ≠ []) :
    ∃ hull, find_hull pts ret = Except.ok (ret ++ hull) ∧
      find_hull pts [] = Except.ok hull := by
  match pts, hne with
  | [p], _ => exact ⟨[p], rfl, rfl⟩
  | a :: b :: rest, _ => exact ⟨hull_points (a :: b :: rest), rfl, rfl⟩

/-- Witness for C10: a singleton hull appended after pre-existing output
contents. -/
theorem claim_C10_witness :
    ∃ hull, find_hull [((2:ℚ),(3:ℚ))] [((9:ℚ),(9:ℚ))] =
        Except.ok ([((9:ℚ),(9:ℚ))] ++ hull) ∧
      find_hull [((2:ℚ),(3:ℚ))] [] = Except.ok hull :=
  claim_C10 [((2:ℚ),(3:ℚ))] [((9:ℚ),(9:ℚ))] (by simp)
